import Mathlib

/-!
Verification of the ranking, window, case_when, NA-replacement and
column-selection helpers of this repository (files
`datar/dplyr/funcs.py`, `datar/tidyr/replace_na.py`, `plyrda/funcs.py`,
`plyrda/utils.py`).

Vectors are modelled as `List (Option ℚ)` where `none` stands for the
library's NA / NaN value.  The underlying dataframe library's ranking
primitive (`Series.rank`) is an external collaborator; it is modelled by
`pandasRank` below from its documented behaviour (sort the values and
assign 1-based positions; ties take the minimal position for
`method='min'` and distinct-value positions for `method='dense'`).
-/

namespace Datar

/-- Non-NA values of a vector, in order. -/
def seriesValues (xs : List (Option ℚ)) : List ℚ :=
  xs.filterMap id

/-- Sort key used by the rank primitive: identity when ascending,
negation when descending (ranking a `DescSeries` is ranking by `≥`). -/
def rankKey (asc : Bool) (v : ℚ) : ℚ :=
  if asc then v else -v

/-- Values sorted in rank order (ascending in the sort key). -/
def sortedKeyed (vals : List ℚ) (asc : Bool) : List ℚ :=
  List.insertionSort (· ≤ ·) (vals.map (rankKey asc))

/-- Rank of a value with pandas `method='min'`: one plus the position of
the first occurrence of the value in the sorted list. -/
def minRankOf (vals : List ℚ) (asc : Bool) (v : ℚ) : ℕ :=
  (sortedKeyed vals asc).indexOf (rankKey asc v) + 1

/-- Rank of a value with pandas `method='dense'`: one plus the position
of the value among the distinct sorted values. -/
def denseRankOf (vals : List ℚ) (asc : Bool) (v : ℚ) : ℕ :=
  (sortedKeyed vals asc).dedup.indexOf (rankKey asc v) + 1

/-- Ranking methods of `Series.rank` used by this repository. -/
inductive RankMethod where
  | min : RankMethod
  | dense : RankMethod
deriving DecidableEq

/-- The `na_option` argument of `Series.rank`. -/
inductive NaOption where
  | keep : NaOption
  | top : NaOption
  | bottom : NaOption
deriving DecidableEq

/-- Rank of a non-NA value for a given method. -/
def rawRankOf (method : RankMethod) (vals : List ℚ) (asc : Bool) (v : ℚ) : ℕ :=
  match method with
  | .min => minRankOf vals asc v
  | .dense => denseRankOf vals asc v

/-- Rank assigned to an NA entry when `na_option` places NAs at the
bottom. -/
def naBottomRank (method : RankMethod) (vals : List ℚ) (asc : Bool) : ℚ :=
  match method with
  | .min => (vals.length : ℚ) + 1
  | .dense => ((sortedKeyed vals asc).dedup.length : ℚ) + 1

/-- Offset added to a value's rank when `na_option='top'` makes the NAs
rank before every value. -/
def naTopOffset (method : RankMethod) (nNA : ℕ) : ℚ :=
  match method with
  | .min => (nNA : ℚ)
  | .dense => if nNA = 0 then 0 else 1

/-- Ranks of all entries, before the optional `pct` scaling. -/
def rankedNA (xs : List (Option ℚ)) (method : RankMethod) (asc : Bool) :
    NaOption → List (Option ℚ)
  | .keep => xs.map (fun o => o.map (fun v =>
      ((rawRankOf method (seriesValues xs) asc v : ℕ) : ℚ)))
  | .top => xs.map (fun o =>
      match o with
      | none => some 1
      | some v => some ((rawRankOf method (seriesValues xs) asc v : ℚ) +
          naTopOffset method (xs.length - (seriesValues xs).length)))
  | .bottom => xs.map (fun o =>
      match o with
      | none => some (naBottomRank method (seriesValues xs) asc)
      | some v => some ((rawRankOf method (seriesValues xs) asc v : ℚ)))

/-- Number of ranked entries, the divisor used by `pct=True`. -/
def pctDenom (xs : List (Option ℚ)) : NaOption → ℕ
  | .keep => (seriesValues xs).length
  | .top => xs.length
  | .bottom => xs.length

/-- Model of the dataframe library's `Series.rank(method, ascending,
pct, na_option)` on a vector with NAs.  With `na_option='keep'` NA
entries stay NA and are excluded from the ranking; with `'top'`
(`'bottom'`) they rank before (after) every value.  With `pct=True`
each rank is divided by the number of ranked (non-NA) entries. -/
def pandasRank (xs : List (Option ℚ)) (method : RankMethod) (asc : Bool)
    (naOpt : NaOption) (pct : Bool) : List (Option ℚ) :=
  if pct then
    (rankedNA xs method asc naOpt).map
      (fun o => o.map (fun r => r / (pctDenom xs naOpt : ℚ)))
  else rankedNA xs method asc naOpt

/-- The `na_last` argument of the ranking functions: the Python value is
either the string `"keep"` or anything truthy/falsy. -/
inductive NaLastArg where
  | keep : NaLastArg
  | other : Bool → NaLastArg
deriving DecidableEq

/-- Embeds `'keep' if na_last == 'keep' else 'top' if not na_last else
'bottom'` from `_ranking`. -/
def toNaOption : NaLastArg → NaOption
  | .keep => .keep
  | .other b => if b then .bottom else .top

/-- Embedding of `_ranking(data, na_last, method, percent)` from
`datar/dplyr/funcs.py` (identical in `plyrda/funcs.py`).  `isDesc`
models `isinstance(data, DescSeries)`, so `ascending = !isDesc`. -/
def _ranking (data : List (Option ℚ)) (isDesc : Bool) (na_last : NaLastArg)
    (method : RankMethod) (percent : Bool) : List (Option ℚ) :=
  pandasRank data method (!isDesc) (toNaOption na_last) percent

/-- Embedding of `min_rank(series, na_last="keep")`. -/
def min_rank (series : List (Option ℚ)) (isDesc : Bool) (na_last : NaLastArg) :
    List (Option ℚ) :=
  _ranking series isDesc na_last .min false

/-- Embedding of `dense_rank(series, na_last="keep")`. -/
def dense_rank (series : List (Option ℚ)) (isDesc : Bool) (na_last : NaLastArg) :
    List (Option ℚ) :=
  _ranking series isDesc na_last .dense false

/-- Embedding of `percent_rank(series, na_last="keep")`: the min-ranking
with `pct=True` is rescaled by `(r - min)/(max - min)` where `min`/`max`
are the smallest and largest produced percentage rank (pandas
`Series.min`/`Series.max` skip NA), and NA entries are reset to NA. -/
def percent_rank (series : List (Option ℚ)) (isDesc : Bool)
    (na_last : NaLastArg) : List (Option ℚ) :=
  let ranking := _ranking series isDesc na_last .min true
  let rvals := seriesValues ranking
  match rvals.min?, rvals.max? with
  | some mn, some mx =>
    ranking.map (fun o => o.map (fun r => (r - mn) / (mx - mn)))
  | _, _ => ranking

/-- Embedding of `cume_dist(series, na_last="keep")`: each entry of the
min-ranking is replaced by `ranking.le(r).sum() / ranking.max()`; in
pandas `NaN <= r` is false, so the sum counts the non-NA ranks `≤ r`. -/
def cume_dist (series : List (Option ℚ)) (isDesc : Bool)
    (na_last : NaLastArg) : List (Option ℚ) :=
  let ranking := _ranking series isDesc na_last .min false
  let rvals := seriesValues ranking
  match rvals.max? with
  | some mx =>
    ranking.map (fun o => o.map (fun r =>
      ((rvals.countP (fun x => decide (x ≤ r))) : ℚ) / mx))
  | none => ranking

/-- Reference definition following the claim's (R's) words:
`percent_rank(x) = (min_rank(x) - 1) / (number of non-NA values - 1)`,
with `min_rank(v) = 1 + #\x7bnon-NA values < v\x7d`, and NA kept NA. -/
def percent_rank_R (xs : List (Option ℚ)) : List (Option ℚ) :=
  let vals := seriesValues xs
  xs.map (fun o => o.map (fun v =>
    ((vals.countP (fun w => decide (w < v))) : ℚ) / ((vals.length : ℚ) - 1)))

/-- Reference definition following the claim's (R's) words:
`cume_dist(x)_i = #\x7bnon-NA values ≤ x_i\x7d / #\x7bnon-NA values\x7d`, NA kept. -/
def cume_dist_R (xs : List (Option ℚ)) : List (Option ℚ) :=
  let vals := seriesValues xs
  xs.map (fun o => o.map (fun v =>
    ((vals.countP (fun w => decide (w ≤ v))) : ℚ) / (vals.length : ℚ)))

/-- Embedding of `lead(series, n, default)` from `datar/dplyr/funcs.py`
called without `order_by`: `ret = [default] * len(series);
ret[:-n] = series.values[n:]`, which for `1 ≤ n ≤ len` drops the first
`n` values and pads the last `n` positions with the default. -/
def lead {α : Type} (series : List α) (n : ℕ) (default : α) : List α :=
  series.drop n ++ List.replicate (min n series.length) default

/-- Embedding of `lag(series, n, default)` called without `order_by`:
`ret = [default] * len(series); ret[n:] = series.values[:-n]`. -/
def lag {α : Type} (series : List α) (n : ℕ) (default : α) : List α :=
  List.replicate (min n series.length) default ++
    series.take (series.length - n)

/-- A condition argument of `case_when`: either the literal Python
`True` (written `top`) or a boolean mask over the rows. -/
inductive CWCond where
  | top : CWCond
  | mask : List Bool → CWCond
deriving DecidableEq

/-- One element of the flat `*when_cases` tuple of `case_when`: a
condition or a replacement value. -/
inductive CWArg (V : Type) where
  | cond : CWCond → CWArg V
  | val : V → CWArg V
deriving DecidableEq

/-- Errors `case_when` can raise: the explicit
`ValueError('Number of arguments of case_when should be even.')`, or
the dataframe library's error when a pair is not a (mask, value) pair
of the right shape. -/
inductive CWErr where
  | valueError : CWErr
  | keyError : CWErr
deriving DecidableEq

/-- Embeds `zip(when_cases[0::2], when_cases[1::2])`: consecutive
elements are paired up. -/
def pairUp {α : Type} : List α → List (α × α)
  | a :: b :: rest => (a, b) :: pairUp rest
  | _ => []

/-- One iteration of the `case_when` loop: `df['x'] = ret` when the
condition is the literal `True`, otherwise `df.loc[case, 'x'] = ret`
(rows where the mask holds are overwritten, the mask must align with
the frame). -/
def applyCase {V : Type} (col : List (Option V)) (c : CWCond) (v : V) :
    Except CWErr (List (Option V)) :=
  match c with
  | .top => .ok (col.map (fun _ => some v))
  | .mask m =>
    if m.length = col.length then
      .ok (List.zipWith (fun b cur => if b then some v else cur) m col)
    else .error .keyError

/-- The `for case, ret in when_cases:` loop of `case_when` over an
already-reversed pair list. -/
def case_whenLoop {V : Type} (col : List (Option V)) :
    List (CWArg V × CWArg V) → Except CWErr (List (Option V))
  | [] => .ok col
  | (.cond c, .val v) :: rest =>
    match applyCase col c v with
    | .ok col' => case_whenLoop col' rest
    | .error e => .error e
  | _ :: _ => .error .keyError

/-- Embedding of `case_when(_data, *when_cases)` from
`datar/dplyr/funcs.py` (`plyrda/funcs.py` is identical): an odd number
of arguments raises ValueError before any result is built; otherwise a
frame column of `nrow` NAs is filled by iterating the (condition,
value) pairs in reversed order, so earlier pairs overwrite later
ones. -/
def case_when {V : Type} (nrow : ℕ) (when_cases : List (CWArg V)) :
    Except CWErr (List (Option V)) :=
  if when_cases.length % 2 ≠ 0 then .error .valueError
  else case_whenLoop (List.replicate nrow none) (pairUp when_cases).reverse

/-- Does a condition hold at row `i`? The literal `True` holds
everywhere; a mask holds where it is `true`. -/
def condHolds (c : CWCond) (i : ℕ) : Bool :=
  match c with
  | .top => true
  | .mask m => m.getD i false

/-- Value of the first (in argument order) pair whose condition holds
at row `i`, if any — the claim's reading of `case_when`. -/
def firstCaseValue {V : Type} : List (CWCond × V) → ℕ → Option V
  | [], _ => none
  | p :: ps, i => if condHolds p.1 i then some p.2 else firstCaseValue ps i

/-- A condition aligns with the frame: the literal `True` always does,
a mask only when its length is the number of rows. -/
def condLenOK (c : CWCond) (nrow : ℕ) : Bool :=
  match c with
  | .top => true
  | .mask m => m.length == nrow

/-- The flat argument tuple corresponding to a list of
(condition, value) pairs. -/
def flattenCases {V : Type} (pairs : List (CWCond × V)) : List (CWArg V) :=
  pairs.flatMap (fun p => [.cond p.1, .val p.2])

/-- A grouped single-column frame is modelled as the list of
(group key, value) rows; `groupKeys` are the distinct keys, as
`DataFrameGroupBy` partitions them. -/
def groupKeys {K V : Type} [DecidableEq K] (df : List (K × V)) : List K :=
  (df.map Prod.fst).dedup

/-- Rows of one partition, in frame order. -/
def groupRows {K V : Type} [DecidableEq K] (df : List (K × V)) (k : K) :
    List (K × V) :=
  df.filter (fun r => decide (r.1 = k))

/-- The `DataFrame` branch of `_register_grouped_col1`'s wrapper: the
column is evaluated against the frame and the scalar function is
applied to it directly. -/
def ungrouped_apply {K V β : Type} (func : List V → β) (df : List (K × V)) : β :=
  func (df.map Prod.snd)

/-- The `DataFrameGroupBy` branch of `_register_grouped_col1`'s
wrapper: `series.apply(func)` applies the scalar function to each
partition's values, keyed by the group key. -/
def grouped_apply {K V β : Type} [DecidableEq K] (func : List V → β)
    (df : List (K × V)) : List (K × β) :=
  (groupKeys df).map (fun k => (k, func ((groupRows df k).map Prod.snd)))

/-- Embedding of the generic `_replace_na(data, replace)` from
`datar/tidyr/replace_na.py`: each null (NA) element becomes the
replacement, every other element is kept (`ret = data.copy();
ret[pd.isnull(ret)] = replace`). -/
def _replace_na {V : Type} (data : List (Option V)) (replace : Option V) :
    List (Option V) :=
  data.map (fun elem => if elem.isNone then replace else elem)

/-- Embedding of `replace_na(data, data_or_replace=None, replace=None)`
in the call shapes the claim describes: with no replacement it returns
`data.copy()`; with `data_or_replace` given (and `replace=None`) that
argument is the replacement and `_replace_na` is applied. -/
def replace_na {V : Type} (data : List (Option V))
    (data_or_replace : Option (Option V)) : List (Option V) :=
  match data_or_replace with
  | none => data
  | some rep => _replace_na data rep

/-- Errors of the column-selection helpers in `plyrda/utils.py`:
`ColumnNameInvalidError`, `ColumnNotExistingError`, and the Python
exceptions the helpers can hit (`IndexError` from list indexing,
`ValueError` from `list.index`, `TypeError` from `None + 1`). -/
inductive ColErr where
  | nameInvalid : ColErr
  | notExisting : String → ColErr
  | indexError : ColErr
  | valueError : ColErr
  | typeError : ColErr
deriving DecidableEq

/-- A Python `slice` as `select_columns` receives it: bounds are column
names or integers (or absent), plus an optional integer step. -/
structure PySlice where
  start : Option (Sum Int String)
  stop : Option (Sum Int String)
  step : Option Int
deriving DecidableEq

/-- Resolves one slice bound as `sanitize_slice` does: a string is
turned into its position via `all_columns.index` (which raises
ValueError when absent), an int is kept. -/
def resolveBound (all_columns : List String) :
    Option (Sum Int String) → Except ColErr (Option Int)
  | none => .ok none
  | some (.inl i) => .ok (some i)
  | some (.inr s) =>
    if s ∈ all_columns then .ok (some (all_columns.indexOf s : Int))
    else .error .valueError

/-- Embedding of `sanitize_slice(slc, all_columns)` from
`plyrda/utils.py`: resolve both bounds, add 1 to the stop (an absent
stop raises TypeError at `int_stop += 1`), and turn a zero step into no
step while undoing the stop shift. -/
def sanitize_slice (slc : PySlice) (all_columns : List String) :
    Except ColErr (Option Int × Option Int × Option Int) :=
  match resolveBound all_columns slc.start with
  | .error e => .error e
  | .ok int_start =>
    match resolveBound all_columns slc.stop with
    | .error e => .error e
    | .ok none => .error .typeError
    | .ok (some j) =>
      if slc.step = some 0 then .ok (int_start, some (j + 1 - 1), none)
      else .ok (int_start, some (j + 1), slc.step)

/-- Python's normalisation of a non-negative-step slice bound:
negative indexes count from the end, and bounds are clamped to
`[0, len]`. -/
def pyClampPos (n : ℕ) (i : Int) : ℕ :=
  if i < 0 then (max 0 ((n : Int) + i)).toNat else (min i (n : Int)).toNat

/-- Contiguous Python list slice `l[start:stop]`. -/
def pySliceContig {α : Type} (l : List α) (start stop : Option Int) : List α :=
  let s := match start with | none => 0 | some i => pyClampPos l.length i
  let e := match stop with | none => l.length | some j => pyClampPos l.length j
  (l.take e).drop s

/-- Python list slicing `l[start:stop:step]` for an already sanitised
slice (the step is never 0 after `sanitize_slice`). -/
def pyGetSlice {α : Type} (l : List α) (start stop step : Option Int) :
    List α :=
  match step with
  | none => pySliceContig l start stop
  | some k =>
    if k > 0 then
      (pySliceContig l start stop).enum.filterMap
        (fun p => if p.1 % k.toNat = 0 then some p.2 else none)
    else if k < 0 then
      let n := l.length
      let s : Int := match start with
        | none => (n : Int) - 1
        | some i => if i < 0 then max (-1) ((n : Int) + i) else min i ((n : Int) - 1)
      let e : Int := match stop with
        | none => -1
        | some j => if j < 0 then max (-1) ((n : Int) + j) else min j ((n : Int) - 1)
      (((List.range n).filter (fun idx : ℕ =>
          decide (e < (idx : Int)) && decide ((idx : Int) ≤ s) &&
          decide ((s - (idx : Int)) % (-k) = 0))).reverse).filterMap
        (fun idx : ℕ => l[idx]?)
    else []

/-- Python list indexing `all_columns[i]` with negative indexes counting
from the end and IndexError outside the range. -/
def pyGetIndex (l : List String) (i : Int) : Except ColErr String :=
  let j : Int := if i < 0 then (l.length : Int) + i else i
  if j < 0 then .error .indexError
  else
    match l[j.toNat]? with
    | some v => .ok v
    | none => .error .indexError

/-- A column selector accepted by `check_column`: an int, a string, a
list of strings, a negated selection, or a slice.  (The `Across`
middleware is out of this embedding's scope; `check_column` itself
raises only on types none of these constructors produce, so it is a
no-op here.)  The `Inverted` constructor is modelled from the spec: the
`plyrda.middlewares.Inverted` class is not under `src/`; per the spec's
negated-selector semantics it is a container whose `elems` are the
negated column names, which `select_columns` reads. -/
inductive PyColumn where
  | int : Int → PyColumn
  | str : String → PyColumn
  | strs : List String → PyColumn
  | inverted : List String → PyColumn
  | slc : PySlice → PyColumn
deriving DecidableEq

/-- The `isinstance(column, Inverted)` test of `select_columns`. -/
def isInverted : PyColumn → Bool
  | .inverted _ => true
  | _ => false

/-- What one selector contributes to `selected` in the
`for column in columns:` loop of `select_columns`. -/
def selectOne (all_columns : List String) : PyColumn → Except ColErr (List String)
  | .int i =>
    match pyGetIndex all_columns i with
    | .ok v => .ok [v]
    | .error e => .error e
  | .str s => .ok [s]
  | .strs l => .ok l
  | .inverted elems => .ok elems
  | .slc s =>
    match sanitize_slice s all_columns with
    | .ok (st, sp, k) => .ok (pyGetSlice all_columns st sp k)
    | .error e => .error e

/-- The accumulation of `selected` over all selectors, propagating the
first error. -/
def buildSelected (all_columns : List String) :
    List PyColumn → Except ColErr (List String)
  | [] => .ok []
  | c :: rest =>
    match selectOne all_columns c with
    | .error e => .error e
    | .ok part =>
      match buildSelected all_columns rest with
      | .error e => .error e
      | .ok more => .ok (part ++ more)

/-- The `raise_nonexist` loop: the first selected name missing from the
pool, if any. -/
def firstMissing (all_columns : List String) : List String → Option String
  | [] => none
  | s :: rest => if s ∈ all_columns then firstMissing all_columns rest else some s

/-- Embedding of `list_diff(list1, list2)` from `plyrda/utils.py`. -/
def list_diff (list1 list2 : List String) : List String :=
  list1.filter (fun elem => decide (elem ∉ list2))

/-- Embedding of `select_columns(all_columns, *columns, raise_nonexist)`
from `plyrda/utils.py`: mixed negated/plain selectors raise
ColumnNameInvalidError; the selectors are expanded in order; with
`raise_nonexist` the first selected name missing from the pool raises
ColumnNotExistingError; and with negated selectors the result is the
pool minus the selection, in pool order. -/
def select_columns (all_columns : List String) (columns : List PyColumn)
    (raise_nonexist : Bool) : Except ColErr (List String) :=
  if (columns.map isInverted).any id && !((columns.map isInverted).all id) then
    .error .nameInvalid
  else
    match buildSelected all_columns columns with
    | .error e => .error e
    | .ok selected =>
      match (if raise_nonexist then firstMissing all_columns selected else none) with
      | some s => .error (.notExisting s)
      | none =>
        if (columns.map isInverted).any id then
          .ok (list_diff all_columns selected)
        else .ok selected

end Datar

namespace Datar

/-- Counting with `≤ v` splits into counting with `< v` plus the
occurrences of `v` itself. -/
theorem countP_le_split (l : List ℚ) (v : ℚ) :
    l.countP (fun w => decide (w ≤ v)) =
      l.countP (fun w => decide (w < v)) + l.count v := by
  induction l with
  | nil => simp
  | cons a t ih =>
    simp only [List.countP_cons, List.count_cons, ih]
    rcases lt_trichotomy a v with h | h | h
    · simp [h.le, h, h.ne, (by simpa using h.ne' : ¬ (v == a) = true)]
      omega
    · subst h
      simp
      omega
    · simp [not_le.mpr h, not_lt.mpr h.le, h.ne', (by simpa using h.ne : ¬ (v == a) = true)]

/-- In a `≤`-sorted list, the index of the first occurrence of a member
equals the number of elements strictly smaller than it. -/
theorem indexOf_sorted_eq_countP (l : List ℚ) (hs : l.Sorted (· ≤ ·)) (v : ℚ)
    (hv : v ∈ l) :
    l.indexOf v = l.countP (fun w => decide (w < v)) := by
  induction l with
  | nil => cases hv
  | cons a t ih =>
    rcases List.sorted_cons.mp hs with ⟨ha, ht⟩
    by_cases hav : a = v
    · subst hav
      have hz : t.countP (fun w => decide (w < a)) = 0 :=
        List.countP_eq_zero.mpr (fun w hw => by simpa using not_lt.mpr (ha w hw))
      simp [List.indexOf_cons_self, List.countP_cons, hz]
    · have hvt : v ∈ t := by
        rcases List.mem_cons.mp hv with h | h
        · exact absurd h.symm hav
        · exact h
      have hlt : a < v := lt_of_le_of_ne (ha v hvt) hav
      simp [List.indexOf_cons_ne _ hav, List.countP_cons, hlt, ih ht hvt]

/-- The min-method rank of a member value is one plus the number of
strictly smaller values. -/
theorem minRankOf_eq (vals : List ℚ) (v : ℚ) (hv : v ∈ vals) :
    minRankOf vals true v = 1 + vals.countP (fun w => decide (w < v)) := by
  have hid : rankKey true = fun v : ℚ => v := by funext w; simp [rankKey]
  have hmap : vals.map (rankKey true) = vals := by rw [hid]; exact List.map_id' vals
  have hsorted : (sortedKeyed vals true).Sorted (· ≤ ·) :=
    List.sorted_insertionSort _ _
  have hperm : List.Perm (sortedKeyed vals true) vals := by
    have := List.perm_insertionSort (fun a b : ℚ => a ≤ b) (vals.map (rankKey true))
    simpa [sortedKeyed, hmap] using this
  have hvmem : v ∈ sortedKeyed vals true := hperm.mem_iff.mpr hv
  have hkey : rankKey true v = v := by simp [rankKey]
  rw [minRankOf, hkey, indexOf_sorted_eq_countP _ hsorted _ hvmem,
    hperm.countP_eq]
  omega

/-- The dense-method rank of a member value is the number of distinct
values that are `≤` it. -/
theorem denseRankOf_eq (vals : List ℚ) (v : ℚ) (hv : v ∈ vals) :
    denseRankOf vals true v = vals.dedup.countP (fun w => decide (w ≤ v)) := by
  have hid : rankKey true = fun v : ℚ => v := by funext w; simp [rankKey]
  have hmap : vals.map (rankKey true) = vals := by rw [hid]; exact List.map_id' vals
  have hsorted : (sortedKeyed vals true).Sorted (· ≤ ·) :=
    List.sorted_insertionSort _ _
  have hperm : List.Perm (sortedKeyed vals true) vals := by
    have := List.perm_insertionSort (fun a b : ℚ => a ≤ b) (vals.map (rankKey true))
    simpa [sortedKeyed, hmap] using this
  have hdsorted : (sortedKeyed vals true).dedup.Sorted (· ≤ ·) :=
    List.Pairwise.sublist (List.dedup_sublist _) hsorted
  have hdperm : List.Perm (sortedKeyed vals true).dedup vals.dedup := hperm.dedup
  have hvmem : v ∈ (sortedKeyed vals true).dedup :=
    List.mem_dedup.mpr (hperm.mem_iff.mpr hv)
  have hkey : rankKey true v = v := by simp [rankKey]
  rw [denseRankOf, hkey, indexOf_sorted_eq_countP _ hdsorted _ hvmem,
    hdperm.countP_eq, countP_le_split]
  have hone : vals.dedup.count v = 1 :=
    List.count_eq_one_of_mem (List.nodup_dedup vals) (List.mem_dedup.mpr hv)
  omega

/-- C3: with `na_last="keep"` (and an ordinary ascending series),
`min_rank` maps each non-NA element `v` to `1 + #\x7bnon-NA elements < v\x7d`
(tied elements share that minimal rank) and keeps NA as NA, while
`dense_rank` maps each non-NA element `v` to the number of distinct
non-NA values `≤ v` and keeps NA as NA. -/
theorem min_rank_dense_rank_keep (xs : List (Option ℚ)) (i : ℕ) :
    (min_rank xs false .keep)[i]? = (xs[i]?).map (Option.map (fun v =>
      ((1 + (seriesValues xs).countP (fun w => decide (w < v)) : ℕ) : ℚ))) ∧
    (dense_rank xs false .keep)[i]? = (xs[i]?).map (Option.map (fun v =>
      (((seriesValues xs).dedup.countP (fun w => decide (w ≤ v)) : ℕ) : ℚ))) := by
  have hmin : min_rank xs false .keep =
      xs.map (fun o => o.map (fun v => ((minRankOf (seriesValues xs) true v : ℕ) : ℚ))) := by
    simp [min_rank, _ranking, pandasRank, toNaOption, rankedNA, rawRankOf]
  have hdense : dense_rank xs false .keep =
      xs.map (fun o => o.map (fun v => ((denseRankOf (seriesValues xs) true v : ℕ) : ℚ))) := by
    simp [dense_rank, _ranking, pandasRank, toNaOption, rankedNA, rawRankOf]
  constructor
  · rw [hmin, List.getElem?_map]
    cases hx : xs[i]? with
    | none => rfl
    | some o =>
      cases o with
      | none => rfl
      | some v =>
        have hv : v ∈ seriesValues xs :=
          List.mem_filterMap.mpr ⟨some v, List.getElem?_mem hx, rfl⟩
        simp [minRankOf_eq _ _ hv]
  · rw [hdense, List.getElem?_map]
    cases hx : xs[i]? with
    | none => rfl
    | some o =>
      cases o with
      | none => rfl
      | some v =>
        have hv : v ∈ seriesValues xs :=
          List.mem_filterMap.mpr ⟨some v, List.getElem?_mem hx, rfl⟩
        simp [denseRankOf_eq _ _ hv]

/-- C1: on the vector `[1, 2, 2]` — two distinct non-NA values, with the
maximum tied — `percent_rank` returns `1` for both tied maximal
elements, whereas R's definition `(min_rank(x) - 1) / (n_nonNA - 1)`
gives `1/2`: the code normalises by the spread of the min-ranks instead
of by `n_nonNA - 1`. -/
theorem percent_rank_tied_max_diverges_from_R :
    percent_rank [some 1, some 2, some 2] false .keep = [some 0, some 1, some 1] ∧
    percent_rank_R [some 1, some 2, some 2] = [some 0, some (1/2), some (1/2)] := by
  constructor
  · simp +decide [percent_rank, _ranking, pandasRank, rankedNA, pctDenom, rawRankOf, seriesValues,
      minRankOf, sortedKeyed, rankKey, toNaOption, List.insertionSort, List.orderedInsert,
      List.indexOf, List.findIdx, List.findIdx.go, List.min?, List.max?, Bool.cond_eq_ite,
      beq_iff_eq]
    norm_num [min_def, max_def]
  · simp +decide [percent_rank_R, seriesValues, List.countP, List.countP.go]
    all_goals norm_num

/-- C2: on the vector `[1, 2, 2]` `cume_dist` returns `3/2 > 1` for the
tied maximal elements, whereas R's definition
`#\x7bnon-NA ≤ x_i\x7d / n_nonNA` gives `1` (every output in `(0, 1]`): the
code divides by the largest min-rank instead of by `n_nonNA`. -/
theorem cume_dist_tied_max_diverges_from_R :
    cume_dist [some 1, some 2, some 2] false .keep =
      [some (1/2), some (3/2), some (3/2)] ∧
    cume_dist_R [some 1, some 2, some 2] = [some (1/3), some 1, some 1] := by
  constructor
  · simp +decide [cume_dist, _ranking, pandasRank, rankedNA, pctDenom, rawRankOf, seriesValues,
      minRankOf, sortedKeyed, rankKey, toNaOption, List.insertionSort, List.orderedInsert,
      List.indexOf, List.findIdx, List.findIdx.go, List.min?, List.max?, Bool.cond_eq_ite,
      beq_iff_eq, List.countP, List.countP.go]
    norm_num [min_def, max_def]
  · simp +decide [cume_dist_R, seriesValues, List.countP, List.countP.go]

end Datar

namespace Datar

/-- C4: for `1 ≤ n < length`, `lead` keeps the length and moves element
`i + n` to position `i`, filling the last `n` positions with the
default; `lag` moves element `i - n` to position `i`, filling the first
`n` positions with the default. -/
theorem lead_lag_shift {α : Type} (s : List α) (n : ℕ) (d : α)
    (h1 : 1 ≤ n) (h2 : n < s.length) :
    (lead s n d).length = s.length ∧ (lag s n d).length = s.length ∧
    (∀ i, i < s.length - n → (lead s n d)[i]? = s[i + n]?) ∧
    (∀ i, s.length - n ≤ i → i < s.length → (lead s n d)[i]? = some d) ∧
    (∀ i, i < n → (lag s n d)[i]? = some d) ∧
    (∀ i, n ≤ i → i < s.length → (lag s n d)[i]? = s[i - n]?) := by
  have hnle : n ≤ s.length := h2.le
  have hmin : min n s.length = n := min_eq_left hnle
  refine ⟨?_, ?_, ?_, ?_, ?_, ?_⟩
  · simp [lead, hmin]
    omega
  · simp [lag, hmin]
    omega
  · intro i hi
    have hd : i < (s.drop n).length := by simp; omega
    rw [lead, List.getElem?_append_left hd, List.getElem?_drop, Nat.add_comm]
  · intro i hge hlt
    have hd : (s.drop n).length ≤ i := by simp; omega
    rw [lead, List.getElem?_append_right hd]
    have : i - (s.drop n).length < n := by simp; omega
    simp [List.getElem?_replicate, this, hmin]
    omega
  · intro i hi
    have hd : i < (List.replicate (min n s.length) d).length := by simp; omega
    rw [lag, List.getElem?_append_left hd]
    simp [List.getElem?_replicate]
    omega
  · intro i hge hlt
    have hd : (List.replicate (min n s.length) d).length ≤ i := by simp; omega
    rw [lag, List.getElem?_append_right hd]
    have ht : i - (List.replicate (min n s.length) d).length < s.length - n := by
      simp; omega
    rw [List.getElem?_take_of_lt ht]
    simp [hmin]

/-- Witness for C4 at `s = [10, 20, 30]`, `n = 1`, `d = 99`. -/
theorem lead_lag_shift_witness :
    (lead [10, 20, 30] 1 (99 : ℤ))[0]? = some 20 ∧
    (lag [10, 20, 30] 1 (99 : ℤ))[0]? = some 99 := by
  have h := lead_lag_shift [10, 20, 30] 1 (99 : ℤ) (by decide) (by decide)
  exact ⟨(h.2.2.1 0 (by decide)).trans (by decide),
    h.2.2.2.2.1 0 (by decide)⟩

end Datar

namespace Datar

/-- Entry `i` of a `zipWith` when both indexes are in range. -/
theorem getElem?_zipWith_of_lt {α β γ : Type} (f : α → β → γ) (as : List α)
    (bs : List β) (i : ℕ) (ha : i < as.length) (hb : i < bs.length) :
    (List.zipWith f as bs)[i]? = some (f (as.get ⟨i, ha⟩) (bs.get ⟨i, hb⟩)) := by
  induction as generalizing bs i with
  | nil => cases ha
  | cons a as ih =>
    cases bs with
    | nil => cases hb
    | cons b bs =>
      cases i with
      | zero => simp [List.zipWith]
      | succ j =>
        have ha' : j < as.length := by simpa using ha
        have hb' : j < bs.length := by simpa using hb
        simpa using ih bs j ha' hb'

/-- The `case_when` loop never produces the even-arity `ValueError`. -/
theorem case_whenLoop_ne_valueError {V : Type} (l : List (CWArg V × CWArg V))
    (col : List (Option V)) :
    case_whenLoop col l ≠ .error .valueError := by
  induction l generalizing col with
  | nil => simp [case_whenLoop]
  | cons hd tl ih =>
    obtain ⟨a, b⟩ := hd
    cases a with
    | cond c =>
      cases b with
      | val v =>
        simp only [case_whenLoop]
        cases hac : applyCase col c v with
        | ok col' => exact ih col'
        | error e =>
          cases c with
          | top => simp [applyCase] at hac
          | mask m =>
            simp only [applyCase] at hac
            by_cases hm : m.length = col.length <;> simp [hm] at hac
            simp [← hac]
      | cond c2 => simp [case_whenLoop]
    | val v => simp [case_whenLoop]

/-- The `case_when` loop processes an appended list in two stages. -/
theorem case_whenLoop_append {V : Type} (l₁ l₂ : List (CWArg V × CWArg V))
    (col : List (Option V)) :
    case_whenLoop col (l₁ ++ l₂) =
      match case_whenLoop col l₁ with
      | .ok c => case_whenLoop c l₂
      | .error e => .error e := by
  induction l₁ generalizing col with
  | nil => simp [case_whenLoop]
  | cons hd tl ih =>
    obtain ⟨a, b⟩ := hd
    cases a with
    | cond c =>
      cases b with
      | val v =>
        simp only [List.cons_append, case_whenLoop]
        cases applyCase col c v with
        | ok col' => exact ih col'
        | error e => rfl
      | cond c2 => simp [case_whenLoop]
    | val v => simp [case_whenLoop]

/-- Processing well-formed pairs in reversed order fills each row with
the value of the first pair (in argument order) whose condition holds
there. -/
theorem case_whenLoop_firstCase {V : Type} (nrow : ℕ)
    (pairs : List (CWCond × V))
    (hwf : ∀ p ∈ pairs, condLenOK p.1 nrow = true) :
    ∃ col, case_whenLoop (List.replicate nrow (none : Option V))
        ((pairs.map (fun p => (CWArg.cond p.1, CWArg.val p.2))).reverse) =
          .ok col ∧
      col.length = nrow ∧
      ∀ i, i < nrow → col[i]? = some (firstCaseValue pairs i) := by
  induction pairs with
  | nil =>
    refine ⟨List.replicate nrow none, rfl, by simp, fun i hi => ?_⟩
    simp [List.getElem?_replicate_of_lt hi, firstCaseValue]
  | cons p ps ih =>
    obtain ⟨col, hcol, hlen, hent⟩ :=
      ih (fun q hq => hwf q (List.mem_cons_of_mem _ hq))
    rw [List.map_cons, List.reverse_cons, case_whenLoop_append, hcol]
    obtain ⟨c, v⟩ := p
    cases c with
    | top =>
      refine ⟨col.map (fun _ => some v), by simp [case_whenLoop, applyCase],
        by simp [hlen], fun i hi => ?_⟩
      rw [List.getElem?_map, hent i hi]
      simp [firstCaseValue, condHolds]
    | mask m =>
      have hm : m.length = nrow := by
        have := hwf (CWCond.mask m, v) (List.mem_cons_self _ _)
        simpa [condLenOK] using this
      refine ⟨List.zipWith (fun b cur => if b then some v else cur) m col,
        ?_, ?_, ?_⟩
      · simp [case_whenLoop, applyCase, hm, hlen]
      · simp [hm, hlen]
      · intro i hi
        have him : i < m.length := by omega
        have hic : i < col.length := by omega
        rw [getElem?_zipWith_of_lt _ _ _ _ him hic]
        have hci : col[i]? = some (firstCaseValue ps i) := hent i hi
        have hget : col.get ⟨i, hic⟩ = firstCaseValue ps i := by
          have := List.getElem?_eq_getElem hic
          rw [this] at hci
          simpa using hci
        have hgd : m.getD i false = m.get ⟨i, him⟩ := by
          simp [List.getD, List.getElem?_eq_getElem him]
        rw [hget]
        simp only [firstCaseValue, condHolds, hgd]

/-- Unfolding of `flattenCases` on a cons cell. -/
theorem flattenCases_cons {V : Type} (p : CWCond × V) (ps : List (CWCond × V)) :
    flattenCases (p :: ps) = .cond p.1 :: .val p.2 :: flattenCases ps :=
  rfl

/-- The flat argument list of `k` pairs has `2k` elements. -/
theorem flattenCases_length {V : Type} (pairs : List (CWCond × V)) :
    (flattenCases pairs).length = 2 * pairs.length := by
  induction pairs with
  | nil => rfl
  | cons p ps ihp =>
    rw [flattenCases_cons]
    simp only [List.length_cons, ihp]
    omega

/-- Pairing the flattened argument list back up recovers the pairs. -/
theorem pairUp_flattenCases {V : Type} (pairs : List (CWCond × V)) :
    pairUp (flattenCases pairs) =
      pairs.map (fun p => (CWArg.cond p.1, CWArg.val p.2)) := by
  induction pairs with
  | nil => rfl
  | cons p ps ihp =>
    rw [flattenCases_cons, pairUp, ihp, List.map_cons]

/-- C5: for a frame with `nrow` rows and well-aligned (condition,
value) pairs, `case_when` succeeds and assigns to each row the value of
the first pair (in argument order) whose condition holds there — a
literal `True` condition matching every row not already decided by an
earlier pair — and NA (`none`) to rows no condition matches. -/
theorem case_when_first_match {V : Type} (nrow : ℕ)
    (pairs : List (CWCond × V))
    (hwf : ∀ p ∈ pairs, condLenOK p.1 nrow = true) :
    ∃ col, case_when nrow (flattenCases pairs) = .ok col ∧
      col.length = nrow ∧
      ∀ i, i < nrow → col[i]? = some (firstCaseValue pairs i) := by
  rw [case_when, pairUp_flattenCases]
  have heven : ¬ (flattenCases pairs).length % 2 ≠ 0 := by
    rw [flattenCases_length]
    omega
  rw [if_neg heven]
  exact case_whenLoop_firstCase nrow pairs hwf

/-- Witness for C5 at two rows with pairs
`[(mask [true, false], 10), (True, 20)]`. -/
theorem case_when_first_match_witness :
    ∃ col, case_when 2
        (flattenCases [(CWCond.mask [true, false], (10 : ℤ)), (CWCond.top, 20)]) =
          .ok col ∧
      col.length = 2 ∧
      ∀ i, i < 2 → col[i]? = some (firstCaseValue
        [(CWCond.mask [true, false], (10 : ℤ)), (CWCond.top, 20)] i) :=
  case_when_first_match 2 _ (by decide)

/-- C6: `case_when` returns the even-arity `ValueError` exactly when the
number of when-case arguments is odd; the parity check precedes the
loop, so no column is built in that case. -/
theorem case_when_valueError_iff {V : Type} (nrow : ℕ)
    (when_cases : List (CWArg V)) :
    case_when nrow when_cases = .error .valueError ↔
      when_cases.length % 2 ≠ 0 := by
  rw [case_when]
  by_cases h : when_cases.length % 2 ≠ 0
  · simp [h]
  · rw [if_neg h]
    simpa [h] using case_whenLoop_ne_valueError
      (pairUp when_cases).reverse (List.replicate nrow none)

end Datar

namespace Datar

/-- Looking a key up in a keyed map over distinct keys. -/
theorem lookup_map_of_nodup {K β : Type} [DecidableEq K] (g : K → β)
    (ks : List K) (hn : ks.Nodup) (k : K) (hk : k ∈ ks) :
    (ks.map (fun x => (x, g x))).lookup k = some (g k) := by
  induction ks with
  | nil => cases hk
  | cons a t ih =>
    rcases List.nodup_cons.mp hn with ⟨hat, hnt⟩
    by_cases hka : k = a
    · subst hka
      simp [List.lookup]
    · have hkt : k ∈ t := by
        rcases List.mem_cons.mp hk with h | h
        · exact absurd h hka
        · exact h
      have : (k == a) = false := beq_false_of_ne hka
      simp [List.lookup, this, ih hnt hkt]

/-- C7: for every grouped frame and every group key, the registered
grouped function's result at that key is the ungrouped function applied
to exactly that partition's rows: every row of the partition carries the
key, every frame row with the key is in the partition, and the value the
key maps to is `func` of those rows alone. -/
theorem register_grouped_per_partition {K V β : Type} [DecidableEq K]
    (func : List V → β) (df : List (K × V)) (k : K)
    (hk : k ∈ groupKeys df) :
    (grouped_apply func df).lookup k = some (ungrouped_apply func (groupRows df k)) ∧
    (∀ r ∈ groupRows df k, r.1 = k) ∧
    (∀ r ∈ df, r.1 = k → r ∈ groupRows df k) := by
  refine ⟨?_, ?_, ?_⟩
  · have hn : (groupKeys df).Nodup := List.nodup_dedup _
    exact lookup_map_of_nodup
      (fun x => func ((groupRows df x).map Prod.snd)) (groupKeys df) hn k hk
  · intro r hr
    have := List.mem_filter.mp hr
    simpa using this.2
  · intro r hr hrk
    exact List.mem_filter.mpr ⟨hr, by simpa using hrk⟩

/-- Witness for C7 on the frame `[(0, 1), (1, 2), (0, 3)]` with the
identity column function at key `0`. -/
theorem register_grouped_per_partition_witness :
    (grouped_apply (fun l => l) [((0 : ℕ), (1 : ℤ)), (1, 2), (0, 3)]).lookup 0 =
      some [1, 3] :=
  ((register_grouped_per_partition (fun l => l)
    [((0 : ℕ), (1 : ℤ)), (1, 2), (0, 3)] 0 (by decide)).1).trans (by decide)

end Datar

namespace Datar

/-- C8: `replace_na` is value-pure: with no replacement it returns the
data unchanged, and with a replacement it returns a same-length result
in which exactly the null elements are replaced — every non-null
element is returned unchanged, and the input itself is untouched (the
embedding is pure and the source copies before writing). -/
theorem replace_na_exact_nulls {V : Type} (data : List (Option V))
    (r : Option V) (i : ℕ) :
    replace_na data none = data ∧
    (replace_na data (some r)).length = data.length ∧
    (replace_na data (some r))[i]? =
      (data[i]?).map (fun elem => if elem.isNone then r else elem) := by
  refine ⟨rfl, ?_, ?_⟩
  · simp [replace_na, _replace_na]
  · simp [replace_na, _replace_na, List.getElem?_map]

end Datar

namespace Datar

/-- Negated selectors contribute exactly their stored names. -/
theorem buildSelected_inverted (ac : List String) (ls : List (List String)) :
    buildSelected ac (ls.map PyColumn.inverted) = .ok ls.flatten := by
  induction ls with
  | nil => rfl
  | cons l t ih => simp [buildSelected, selectOne, ih]

/-- The `raise_nonexist` scan finds nothing when every selected name is
in the pool. -/
theorem firstMissing_eq_none (ac sel : List String)
    (h : ∀ s ∈ sel, s ∈ ac) : firstMissing ac sel = none := by
  induction sel with
  | nil => rfl
  | cons s t ih =>
    have hs : s ∈ ac := h s (by simp)
    simp only [firstMissing, if_pos hs]
    exact ih (fun x hx => h x (by simp [hx]))

/-- The `raise_nonexist` scan reports a missing name whenever one
exists. -/
theorem firstMissing_finds (ac sel : List String) (s : String)
    (hs : s ∈ sel) (hsa : s ∉ ac) :
    ∃ name, firstMissing ac sel = some name ∧ name ∉ ac := by
  induction sel with
  | nil => cases hs
  | cons t rest ih =>
    by_cases hta : t ∈ ac
    · have hsr : s ∈ rest := by
        rcases List.mem_cons.mp hs with h | h
        · subst h; exact absurd hta hsa
        · exact h
      obtain ⟨nm, hnm, hnma⟩ := ih hsr
      exact ⟨nm, by simp [firstMissing, hta, hnm], hnma⟩
    · exact ⟨t, by simp [firstMissing, hta], hta⟩

/-- C9: (i) when some but not all selectors are negated,
`select_columns` raises ColumnNameInvalidError; (ii) when all selectors
are negated (and name only pool columns), it returns exactly the pool
columns not mentioned by any selector, in pool order; (iii) with
`raise_nonexist=True` and an admissible selector list, a selected name
missing from the pool raises ColumnNotExistingError. -/
theorem select_columns_negation_rules :
    (∀ (ac : List String) (columns : List PyColumn) (r : Bool),
      (columns.map isInverted).any id = true →
      (columns.map isInverted).all id = false →
      select_columns ac columns r = .error .nameInvalid) ∧
    (∀ (ac : List String) (ls : List (List String)),
      ls ≠ [] → (∀ s ∈ ls.flatten, s ∈ ac) →
      select_columns ac (ls.map PyColumn.inverted) true =
        .ok (ac.filter (fun c => decide (c ∉ ls.flatten)))) ∧
    (∀ (ac : List String) (columns : List PyColumn) (sel : List String)
        (s : String),
      ((columns.map isInverted).any id = false ∨
        (columns.map isInverted).all id = true) →
      buildSelected ac columns = .ok sel → s ∈ sel → s ∉ ac →
      ∃ name, select_columns ac columns true = .error (.notExisting name) ∧
        name ∉ ac) := by
  refine ⟨?_, ?_, ?_⟩
  · intro ac columns r h1 h2
    simp [select_columns, h1, h2]
  · intro ac ls hne hsub
    have hmap : ∀ t : List (List String),
        (t.map PyColumn.inverted).map isInverted =
          List.replicate t.length true := by
      intro t
      induction t with
      | nil => rfl
      | cons x xs ih => simp [isInverted, List.replicate_succ, ih]
    have hany : ((ls.map PyColumn.inverted).map isInverted).any id = true := by
      rw [hmap]
      cases ls with
      | nil => exact absurd rfl hne
      | cons x t => simp [List.replicate_succ]
    have hall : ((ls.map PyColumn.inverted).map isInverted).all id = true := by
      rw [hmap]; simp
    have hfm : firstMissing ac ls.flatten = none :=
      firstMissing_eq_none ac ls.flatten hsub
    unfold select_columns
    rw [hany, hall, buildSelected_inverted]
    simp [hfm, list_diff]
  · intro ac columns sel s hneg hbuild hssel hsa
    have hcond : ((columns.map isInverted).any id &&
        !((columns.map isInverted).all id)) = false := by
      rcases hneg with h | h <;> simp [h]
    obtain ⟨name, hnm, hnma⟩ := firstMissing_finds ac sel s hssel hsa
    refine ⟨name, ?_, hnma⟩
    simp [select_columns, hcond, hbuild, hnm]

/-- Witness for C9: mixed negation on a one-column pool, pure negation
on a three-column pool, and a missing plain name. -/
theorem select_columns_negation_rules_witness :
    select_columns ["a"] [PyColumn.inverted ["a"], PyColumn.str "a"] true =
      .error .nameInvalid ∧
    select_columns ["a", "b", "c"] [PyColumn.inverted ["b"]] true =
      .ok ["a", "c"] ∧
    (∃ name, select_columns ["a"] [PyColumn.str "zzz"] true =
      .error (.notExisting name) ∧ name ∉ ["a"]) := by
  refine ⟨?_, ?_, ?_⟩
  · exact select_columns_negation_rules.1 ["a"]
      [PyColumn.inverted ["a"], PyColumn.str "a"] true (by rfl) (by rfl)
  · exact (select_columns_negation_rules.2.1 ["a", "b", "c"] [["b"]]
      (by simp) (by decide)).trans (by rfl)
  · exact select_columns_negation_rules.2.2 ["a"] [PyColumn.str "zzz"]
      ["zzz"] "zzz" (Or.inl (by rfl)) (by rfl) (by simp) (by decide)

/-- C10 counterexample: with pool `["a", "b"]` and the slice from
column `"b"` to column `"a"` (start after stop in pool order), the
selection is empty — it contains neither the start nor the stop column,
so the claimed closed range fails as stated for every pair of in-pool
bounds. -/
theorem select_columns_slice_reversed_bounds_empty :
    select_columns ["a", "b"]
      [PyColumn.slc ⟨some (Sum.inr "b"), some (Sum.inr "a"), none⟩] true =
      .ok [] := by
  rfl

/-- C10 (amended): when the start column occurs no later than the stop
column in the pool, the slice selects the closed range from start to
stop in pool order — both endpoints included (the stop bound is
inclusive, unlike ordinary Python slicing). -/
theorem select_columns_slice_closed_range (pool : List String) (a b : String)
    (ha : a ∈ pool) (hb : b ∈ pool)
    (hij : pool.indexOf a ≤ pool.indexOf b) :
    select_columns pool
      [PyColumn.slc ⟨some (Sum.inr a), some (Sum.inr b), none⟩] true =
      .ok ((pool.take (pool.indexOf b + 1)).drop (pool.indexOf a)) ∧
    a ∈ (pool.take (pool.indexOf b + 1)).drop (pool.indexOf a) ∧
    b ∈ (pool.take (pool.indexOf b + 1)).drop (pool.indexOf a) := by
  have hia : pool.indexOf a < pool.length := List.indexOf_lt_length.mpr ha
  have hib : pool.indexOf b < pool.length := List.indexOf_lt_length.mpr hb
  have hclampa : pyClampPos pool.length ((pool.indexOf a : ℕ) : Int) =
      pool.indexOf a := by
    rw [pyClampPos, if_neg (by omega)]
    omega
  have hclampb : pyClampPos pool.length (((pool.indexOf b : ℕ) : Int) + 1) =
      pool.indexOf b + 1 := by
    rw [pyClampPos, if_neg (by omega)]
    omega
  have hsan : sanitize_slice ⟨some (Sum.inr a), some (Sum.inr b), none⟩ pool =
      .ok (some ((pool.indexOf a : ℕ) : Int),
        some (((pool.indexOf b : ℕ) : Int) + 1), none) := by
    simp [sanitize_slice, resolveBound, ha, hb]
  have hone : selectOne pool
      (PyColumn.slc ⟨some (Sum.inr a), some (Sum.inr b), none⟩) =
      .ok ((pool.take (pool.indexOf b + 1)).drop (pool.indexOf a)) := by
    simp [selectOne, hsan, pyGetSlice, pySliceContig, hclampa, hclampb]
  have hbuild : buildSelected pool
      [PyColumn.slc ⟨some (Sum.inr a), some (Sum.inr b), none⟩] =
      .ok ((pool.take (pool.indexOf b + 1)).drop (pool.indexOf a)) := by
    simp [buildSelected, hone]
  have hsub : ∀ s ∈ (pool.take (pool.indexOf b + 1)).drop (pool.indexOf a),
      s ∈ pool := by
    intro s hs
    exact List.mem_of_mem_take (List.mem_of_mem_drop hs)
  have hfm : firstMissing pool
      ((pool.take (pool.indexOf b + 1)).drop (pool.indexOf a)) = none :=
    firstMissing_eq_none pool _ hsub
  have hamem : a ∈ (pool.take (pool.indexOf b + 1)).drop (pool.indexOf a) := by
    have h0 : ((pool.take (pool.indexOf b + 1)).drop (pool.indexOf a))[0]? =
        some a := by
      rw [List.getElem?_drop]
      rw [List.getElem?_take_of_lt (by omega : pool.indexOf a + 0 <
        pool.indexOf b + 1)]
      simpa using List.getElem?_indexOf ha
    exact List.getElem?_mem h0
  have hbmem : b ∈ (pool.take (pool.indexOf b + 1)).drop (pool.indexOf a) := by
    have h0 : ((pool.take (pool.indexOf b + 1)).drop
        (pool.indexOf a))[pool.indexOf b - pool.indexOf a]? = some b := by
      rw [List.getElem?_drop]
      have heq : pool.indexOf a + (pool.indexOf b - pool.indexOf a) =
          pool.indexOf b := by omega
      rw [heq]
      rw [List.getElem?_take_of_lt (by omega : pool.indexOf b <
        pool.indexOf b + 1)]
      exact List.getElem?_indexOf hb
    exact List.getElem?_mem h0
  refine ⟨?_, hamem, hbmem⟩
  simp [select_columns, hbuild, hfm, isInverted]

/-- Witness for the amended C10 on pool `["x", "y", "z"]` slicing from
`"x"` to `"z"`. -/
theorem select_columns_slice_closed_range_witness :
    select_columns ["x", "y", "z"]
      [PyColumn.slc ⟨some (Sum.inr "x"), some (Sum.inr "z"), none⟩] true =
      .ok ["x", "y", "z"] :=
  ((select_columns_slice_closed_range ["x", "y", "z"] "x" "z"
    (by decide) (by decide) (by decide)).1).trans (by rfl)

end Datar
